import Mathlib

/-!
Verification of the VIDEO-TO-GIF-CONVERTER repository.

This file gives a shallow embedding of the core logic of the repository
(`src/video_processor.py`, `src/timeline_widget.py`, `src/main.py`) and
proves/refutes the frozen specification claims about it.

Modelling conventions:
* Python floats are modelled by exact rationals (`ℚ`).
* Python's `int(x)` conversion (truncation toward zero) is `pyInt`.
* A decoded image (numpy array) is abstracted to its shape
  `(height, width, channels)`: every claim about frames concerns shapes only.
* Fallible collaborator calls (`clip.get_frame`, `cap.read`) are modelled as
  `Option`-valued functions supplied as parameters.
-/

/-- Python's `int(x)` conversion on a rational: truncation toward zero.
For `q = num/den` in lowest terms with `den > 0`, truncation toward zero is
exactly T-division of the numerator by the denominator. -/
def pyInt (q : ℚ) : ℤ := q.num.tdiv q.den

/-- A decoded frame, abstracted to its numpy shape `(height, width, channels)`.
Pixel content is irrelevant to every claim under verification. -/
structure Frame where
  h : ℕ
  w : ℕ
  c : ℕ
deriving DecidableEq, Repr

/-- Model of `cv2.resize(frame, (w, h))`: the output has height `h`, width `w`
and the channel count of the input. -/
def cv2Resize (w h : ℕ) (f : Frame) : Frame := ⟨h, w, f.c⟩

/-!
## FrameSampler (`src/video_processor.py`, `create_gif`, lines 266-298 and 398-429)

In `create_gif` each segment is sampled as follows:
```
frame_count = int(seg_duration * fps / speed_factor)
if frame_count > 0:
    time_step = seg_duration / frame_count
    for f in range(frame_count):
        frame_time = f * time_step
        if frame_time <= seg_duration:
            ... sample at frame_time ...
```
`samplePlan` is the list of time offsets at which a sample is attempted.
-/

/-- The ordered list of sampled time offsets for one segment of duration
`segDuration`, target fps `fps` and speed factor `speedFactor`
(lines 269-282 / 401-412 of `src/video_processor.py`). -/
def samplePlan (segDuration fps speedFactor : ℚ) : List ℚ :=
  let frameCount := pyInt (segDuration * fps / speedFactor)
  if 0 < frameCount then
    let timeStep := segDuration / (frameCount : ℚ)
    ((List.range frameCount.toNat).map fun (f : ℕ) => (f : ℚ) * timeStep).filter
      fun t => t ≤ segDuration
  else []

/-!
## SegmentPlanner (`src/timeline_widget.py`)

Python's builtin `sorted` on pairs of floats sorts lexicographically and is
stable; since the lexicographic order on `ℚ × ℚ` is total and antisymmetric,
ties are literal duplicates, so any sorting algorithm for that order produces
the same list.  We use Mathlib's (stable) insertion sort.
-/

/-- Lexicographic comparison of `(start, end)` pairs, as used by Python's
`sorted` on 2-tuples. -/
def pairLe (a b : ℚ × ℚ) : Prop := a.1 < b.1 ∨ (a.1 = b.1 ∧ a.2 ≤ b.2)

instance : DecidableRel pairLe := fun a b =>
  inferInstanceAs (Decidable (a.1 < b.1 ∨ (a.1 = b.1 ∧ a.2 ≤ b.2)))

instance : IsTotal (ℚ × ℚ) pairLe :=
  ⟨fun a b => by
    unfold pairLe
    rcases lt_trichotomy a.1 b.1 with h | h | h
    · exact Or.inl (Or.inl h)
    · rcases le_total a.2 b.2 with h2 | h2
      · exact Or.inl (Or.inr ⟨h, h2⟩)
      · exact Or.inr (Or.inr ⟨h.symm, h2⟩)
    · exact Or.inr (Or.inl h)⟩

instance : IsTrans (ℚ × ℚ) pairLe :=
  ⟨fun a b c hab hbc => by
    unfold pairLe at *
    rcases hab with h | ⟨h, h2⟩ <;> rcases hbc with h' | ⟨h', h2'⟩
    · exact Or.inl (h.trans h')
    · exact Or.inl (h'.symm ▸ h)
    · exact Or.inl (h ▸ h')
    · exact Or.inr ⟨h.trans h', h2.trans h2'⟩⟩

instance : IsAntisymm (ℚ × ℚ) pairLe :=
  ⟨fun a b hab hba => by
    unfold pairLe at *
    rcases hab with h | ⟨h, h2⟩ <;> rcases hba with h' | ⟨h', h2'⟩ <;>
      [exact absurd h' (lt_asymm h); exact absurd h (h'.symm ▸ lt_irrefl _);
        exact absurd h' (h.symm ▸ lt_irrefl _); skip]
    exact Prod.ext h (le_antisymm h2 h2')⟩

/-- Model of Python `sorted` on a list of `(start, end)` pairs. -/
def sortPairs (l : List (ℚ × ℚ)) : List (ℚ × ℚ) := l.insertionSort pairLe

/-- One iteration of the exclusion loop of `get_effective_segments`
(`src/timeline_widget.py`, lines 365-379).  The loop state is the pair
`(effective_segments, current_start)`. -/
def effStep (start_time end_time : ℚ) (st : List (ℚ × ℚ) × ℚ)
    (excl : ℚ × ℚ) : List (ℚ × ℚ) × ℚ :=
  if excl.2 ≤ start_time ∨ excl.1 ≥ end_time then st
  else
    let exclusion_start := max excl.1 start_time
    let exclusion_end := min excl.2 end_time
    let segs :=
      if exclusion_start > st.2 then st.1 ++ [(st.2, exclusion_start)]
      else st.1
    (segs, exclusion_end)

/-- `TimelineWidget.get_effective_segments` (`src/timeline_widget.py`,
lines 347-385), with the widget state `self.start_time`, `self.end_time`,
`self.excluded_segments` passed explicitly. -/
def get_effective_segments (start_time end_time : ℚ)
    (excluded_segments : List (ℚ × ℚ)) : List (ℚ × ℚ) :=
  if excluded_segments = [] then [(start_time, end_time)]
  else
    let sorted_exclusions := sortPairs excluded_segments
    let acc :=
      sorted_exclusions.foldl (effStep start_time end_time) ([], start_time)
    if acc.2 < end_time then acc.1 ++ [(acc.2, end_time)] else acc.1

/-- One iteration of the merging loop of `merge_overlapping_segments`
(`src/timeline_widget.py`, lines 539-548).  The Python loop keeps the list
`merged` and mutates its last element; we keep the accumulator reversed so
that the mutated element is the head, and reverse at the end. -/
def mergeStep (merged : List (ℚ × ℚ)) (current : ℚ × ℚ) : List (ℚ × ℚ) :=
  match merged with
  | [] => [current]
  | previous :: tail =>
    if current.1 ≤ previous.2 then
      (previous.1, max previous.2 current.2) :: tail
    else current :: previous :: tail

/-- `merge_overlapping_segments` (`src/timeline_widget.py`, lines 530-550):
sort the segments, then fold the merging loop over the tail. -/
def merge_overlapping_segments (segments : List (ℚ × ℚ)) : List (ℚ × ℚ) :=
  match sortPairs segments with
  | [] => []
  | s0 :: rest => (rest.foldl mergeStep [s0]).reverse

/-- Recursive restatement of the merging loop of `merge_overlapping_segments`:
`mergeSortedRec a l` merges the (sorted) pending list `l` into the open
range `a`.  It is proved equal to the fold in `merge_overlapping_segments`
below and is the handle used for induction. -/
def mergeSortedRec : (ℚ × ℚ) → List (ℚ × ℚ) → List (ℚ × ℚ)
  | a, [] => [a]
  | a, b :: rest =>
    if b.1 ≤ a.2 then mergeSortedRec (a.1, max a.2 b.2) rest
    else a :: mergeSortedRec b rest

/-- The set of time instants covered by a list of `(start, end)` ranges. -/
def coveredTime (l : List (ℚ × ℚ)) : Set ℚ := ⋃ r ∈ l, Set.Icc r.1 r.2

/-- Interval-subtraction walk exactly as worded by the specification
(section 4.3 SegmentPlanner): walk the sorted exclusions left to right
keeping a cursor; for each exclusion overlapping the primary range
(`excl.end > primary.start` and `excl.start < primary.end`) clip it to the
primary bounds, emit `(cursor, clippedStart)` when of positive length, and
advance the cursor to `clippedEnd`; at the end emit `(cursor, primary.end)`
when of positive length. -/
def specSubtractWalk (pStart pEnd : ℚ) : ℚ → List (ℚ × ℚ) → List (ℚ × ℚ)
  | cursor, [] => if cursor < pEnd then [(cursor, pEnd)] else []
  | cursor, excl :: rest =>
    if excl.2 > pStart ∧ excl.1 < pEnd then
      let clippedStart := max excl.1 pStart
      let clippedEnd := min excl.2 pEnd
      (if clippedStart > cursor then [(cursor, clippedStart)] else []) ++
        specSubtractWalk pStart pEnd clippedEnd rest
    else specSubtractWalk pStart pEnd cursor rest

/-- The specification's `effectiveSegments` algorithm (section 4.3): with no
exclusions the result is the primary range alone; otherwise the subtraction
walk over the exclusions sorted by start. -/
def spec_effectiveSegments (pStart pEnd : ℚ) (excluded : List (ℚ × ℚ)) :
    List (ℚ × ℚ) :=
  if excluded = [] then [(pStart, pEnd)]
  else specSubtractWalk pStart pEnd pStart (sortPairs excluded)

/-!
## GifAssembler (`src/video_processor.py`, `create_gif`)

The multi-segment branch of `create_gif` (lines 232-369) is modelled by
`createGifSegments`; the single-segment speed-factor branch (lines 388-470)
by `createGifSingleSpeed`.  In both, `clip.get_frame` (which may raise,
caught by `except ... continue`) is an `Option`-valued parameter.  Writing
the GIF is modelled as the `EncodeCall` record handed to
`imageio.mimsave`; the progress callback's argument sequence is collected as
a list of integers.
-/

/-- The arguments handed to the encode collaborator
(`imageio.mimsave(path, frames, fps, quantizer, loop)`). -/
structure EncodeCall where
  fps : ℚ
  quantizer : ℤ
  loopFlag : ℤ
  frames : List Frame
deriving DecidableEq, Repr

/-- The quantizer argument `int(100 - quality*100)` computed at every
`imageio.mimsave` call site (`src/video_processor.py` lines 354, 460, 516;
`src/main.py` line 590). -/
def quantizer_level (quality : ℚ) : ℤ := pyInt (100 - quality * 100)

/-- The loop argument `0 if loop else 1` computed at every write site
(`src/video_processor.py` lines 347, 458, 479; `src/main.py` line 584). -/
def loop_param (loop : Bool) : ℤ := if loop then 0 else 1

/-- Per-frame sampling of one segment (`create_gif`, lines 273-298 /
403-429): for each `f` in `range(frame_count)` with `f * time_step` within
the segment, attempt a decode; on success post-process the frame with `fix`
and collect it.  Failures (`except ... continue`) contribute nothing. -/
def extractFrames (decode : ℚ → Option Frame) (fix : Frame → Frame)
    (seg_duration : ℚ) (frame_count : ℤ) : List Frame :=
  if 0 < frame_count then
    (List.range frame_count.toNat).filterMap fun (f : ℕ) =>
      if (f : ℚ) * (seg_duration / (frame_count : ℚ)) ≤ seg_duration then
        (decode ((f : ℚ) * (seg_duration / (frame_count : ℚ)))).map fix
      else none
  else []

/-- The progress values reported while sampling one segment: after every
successful decode with `f % 5 == 0` the loop reports `prog f`
(`create_gif`, lines 292-295 / 423-426). -/
def extractProgress (decode : ℚ → Option Frame) (prog : ℕ → ℤ)
    (seg_duration : ℚ) (frame_count : ℤ) : List ℤ :=
  if 0 < frame_count then
    (List.range frame_count.toNat).filterMap fun (f : ℕ) =>
      if (f : ℚ) * (seg_duration / (frame_count : ℚ)) ≤ seg_duration ∧
          (decode ((f : ℚ) * (seg_duration / (frame_count : ℚ)))).isSome ∧
          f % 5 = 0 then
        some (prog f)
      else none
  else []

/-- Shape fix applied to each decoded frame in the multi-segment branch
(lines 287-288): resize when height or width differs from the target. -/
def segmentFix (tw th : ℕ) (fr : Frame) : Frame :=
  if fr.h ≠ th ∨ fr.w ≠ tw then cv2Resize tw th fr else fr

/-- Per-segment filtering (line 304): keep only the frames whose shape
matches the segment's own first frame. -/
def filterToFirstShape (frames : List Frame) : List Frame :=
  match frames with
  | [] => []
  | f0 :: _ => frames.filter fun fr => fr = f0

/-- Appending a segment's frames to the running output (lines 310-318): if
both lists are nonempty and the first shapes disagree, resize the entire new
batch to the height/width of the first accumulated frame, then extend. -/
def appendSegmentFrames (all_frames segment_frames : List Frame) :
    List Frame :=
  match segment_frames with
  | [] => all_frames
  | s0 :: _ =>
    match all_frames with
    | [] => all_frames ++ segment_frames
    | a0 :: _ =>
      if s0 ≠ a0 then all_frames ++ segment_frames.map (cv2Resize a0.w a0.h)
      else all_frames ++ segment_frames

/-- Final compatibility pass (lines 322-334): keep frames matching the first
frame's shape; resize the others to the first frame's height/width. -/
def compatPass (all_frames : List Frame) : List Frame :=
  match all_frames with
  | [] => []
  | f0 :: _ =>
    all_frames.map fun fr => if fr = f0 then fr else cv2Resize f0.w f0.h fr

/-- Progress value reported inside segment `i` of `n` at frame index `f`
(lines 294-295): `min(89, int(40 + (i/n + (f/frame_count)/n) * 50))`. -/
def multiSegProg (i n : ℕ) (frame_count : ℤ) (f : ℕ) : ℤ :=
  min 89 (pyInt (40 + ((i : ℚ) / (n : ℚ) + ((f : ℚ) / (frame_count : ℚ)) / (n : ℚ)) * 50))

/-- The accumulated `all_frames` list of the multi-segment branch after
processing every segment (lines 246-319).  `decode seg t` is
`clip.get_frame(t)` for the subclip of `seg`, after moviepy crop/resize. -/
def assembleAllFrames (decode : ℚ × ℚ → ℚ → Option Frame)
    (segs : List (ℚ × ℚ)) (fps : ℚ) (tw th : ℕ) (speed : ℚ) : List Frame :=
  segs.foldl
    (fun all_frames seg =>
      let seg_duration := seg.2 - seg.1
      let frame_count := pyInt (seg_duration * fps / speed)
      let segment_frames :=
        extractFrames (decode seg) (segmentFix tw th) seg_duration frame_count
      appendSegmentFrames all_frames (filterToFirstShape segment_frames))
    []

/-- The progress values reported while processing the segments (lines
246-295): before segment `i` the loop reports `int(i/n * 40)`, and during it
the periodic per-frame values. -/
def assembleProgress (decode : ℚ × ℚ → ℚ → Option Frame)
    (segs : List (ℚ × ℚ)) (fps speed : ℚ) : List ℤ :=
  segs.enum.foldl
    (fun trace (iseg : ℕ × (ℚ × ℚ)) =>
      let i : ℕ := iseg.1
      let seg := iseg.2
      let seg_duration := seg.2 - seg.1
      let frame_count := pyInt (seg_duration * fps / speed)
      trace ++ pyInt ((i : ℚ) / (segs.length : ℚ) * 40) ::
        extractProgress (decode seg) (multiSegProg i segs.length frame_count)
          seg_duration frame_count)
    []

/-- The multi-segment branch of `create_gif` (lines 232-369): assemble the
frames of all segments, fail (`return False`, no encode) when no frames were
produced, otherwise run the compatibility pass, report 90, encode, report
100. -/
def createGifSegments (decode : ℚ × ℚ → ℚ → Option Frame)
    (segs : List (ℚ × ℚ)) (fps : ℚ) (tw th : ℕ) (quality : ℚ) (loop : Bool)
    (speed : ℚ) : Option EncodeCall × List ℤ :=
  match assembleAllFrames decode segs fps tw th speed with
  | [] => (none, assembleProgress decode segs fps speed)
  | a :: t =>
    match compatPass (a :: t) with
    | [] => (none, assembleProgress decode segs fps speed)
    | c :: cs =>
      (some ⟨fps, quantizer_level quality, loop_param loop, c :: cs⟩,
        assembleProgress decode segs fps speed ++ [90, 100])

/-- Entry guard of `create_gif` (lines 221-222): with no opened capture the
method returns `False` before any progress callback; otherwise (for a
nonempty segment list) the multi-segment branch runs. -/
def create_gif (loaded : Bool) (decode : ℚ × ℚ → ℚ → Option Frame)
    (segs : List (ℚ × ℚ)) (fps : ℚ) (tw th : ℕ) (quality : ℚ) (loop : Bool)
    (speed : ℚ) : Option EncodeCall × List ℤ :=
  if ¬ loaded then (none, [])
  else createGifSegments decode segs fps tw th quality loop speed

/-- The single-segment speed-factor branch of `create_gif` (lines 388-470,
entered when `speed_factor != 1.0`): a sample frame at time 0 fixes the
canonical shape, frames are extracted with per-frame shape correction, then
the final filter pass runs; with frames left, report 80, encode, report 100.
A `none` result models both `return False` and the source's fall-through to
the standard `write_gif` path (line 470), neither of which encodes this
frame list. -/
def createGifSingleSpeed (decode : ℚ → Option Frame)
    (seg_duration fps quality : ℚ) (loop : Bool) (speed : ℚ) :
    Option EncodeCall × List ℤ :=
  match decode 0 with
  | none => (none, [])
  | some correct_shape =>
    match extractFrames decode
        (fun fr =>
          if fr ≠ correct_shape then
            cv2Resize correct_shape.w correct_shape.h fr
          else fr)
        seg_duration (pyInt (seg_duration * fps / speed)) with
    | [] =>
      (none, extractProgress decode
        (fun f => min 89
          (pyInt (30 + (f : ℚ) / ((pyInt (seg_duration * fps / speed)) : ℚ) * 60)))
        seg_duration (pyInt (seg_duration * fps / speed)))
    | a :: t =>
      match compatPass (a :: t) with
      | [] =>
        (none, extractProgress decode
          (fun f => min 89
            (pyInt (30 + (f : ℚ) / ((pyInt (seg_duration * fps / speed)) : ℚ) * 60)))
          seg_duration (pyInt (seg_duration * fps / speed)))
      | c :: cs =>
        (some ⟨fps, quantizer_level quality, loop_param loop, c :: cs⟩,
          extractProgress decode
            (fun f => min 89
              (pyInt (30 + (f : ℚ) / ((pyInt (seg_duration * fps / speed)) : ℚ) * 60)))
            seg_duration (pyInt (seg_duration * fps / speed)) ++ [80, 100])

/-!
## Preview generation (`src/video_processor.py`, `generate_preview`,
lines 607-696) and the save path (`src/main.py`, `save_file`, lines 539-609)
-/

/-- Kernel-computable floor of a rational (`⌊q⌋ = q.num / q.den` with
Euclidean division); used where a reduction-friendly value is needed. -/
def ratFloor (q : ℚ) : ℤ := q.num / q.den

/-- Kernel-computable ceiling of a rational. -/
def ratCeil (q : ℚ) : ℤ := -ratFloor (-q)

/-- `VideoProcessor._apply_processing` (lines 590-605): numpy slice
`frame[y:y+h, x:x+w]` (clamped at the frame bounds), followed by a resize
whenever the dimensions differ from the target. -/
def applyProcessing (dimensions : ℕ × ℕ) (crop_rect : Option (ℕ × ℕ × ℕ × ℕ))
    (frame : Frame) : Frame :=
  let frame :=
    match crop_rect with
    | some (x, y, w, h) =>
      ⟨min (y + h) frame.h - y, min (x + w) frame.w - x, frame.c⟩
    | none => frame
  if dimensions.1 ≠ frame.w ∨ dimensions.2 ≠ frame.h then
    cv2Resize dimensions.1 dimensions.2 frame
  else frame

/-- The frame-collection `while` loop of `generate_preview` (lines 650-662 /
682-694): advance `current` by `step` until it reaches `end_frame` or
`count` reaches `desired`; each successfully decoded frame is processed and
collected.  `fuel` bounds the number of iterations; the wrapper below
supplies enough fuel to reproduce the loop exactly whenever `step > 0`
(with `step <= 0` and the loop entered, the source does not terminate). -/
def previewLoop (getFrame : ℤ → Option Frame) (proc : Frame → Frame)
    (end_frame desired : ℤ) (step : ℚ) :
    ℕ → ℚ → ℤ → List Frame
  | 0, _, _ => []
  | fuel + 1, current, count =>
    if current < (end_frame : ℚ) ∧ count < desired then
      match getFrame (pyInt current) with
      | some frame =>
        proc frame ::
          previewLoop getFrame proc end_frame desired step fuel
            (current + step) (count + 1)
      | none =>
        previewLoop getFrame proc end_frame desired step fuel
          (current + step) count
    else []

/-- Iteration bound for `previewLoop`: with a positive step the loop's
cursor leaves `[start_frame, end_frame)` after at most
`⌈(end_frame - start_frame) / step⌉` steps. -/
def previewFuel (start_frame end_frame : ℤ) (step : ℚ) : ℕ :=
  if 0 < step then
    (ratCeil (((end_frame - start_frame : ℤ) : ℚ) / step)).toNat
  else 0

/-- Frame collection for one preview segment (`generate_preview`,
lines 631-662; the no-segments branch, lines 664-694, is the same
computation applied to the primary trim range). -/
def previewSegmentFrames (getFrame : ℤ → Option Frame) (src_fps : ℚ)
    (dimensions : ℕ × ℕ) (crop_rect : Option (ℕ × ℕ × ℕ × ℕ))
    (seg_start seg_end fps speed : ℚ) : List Frame :=
  let start_frame := pyInt (seg_start * src_fps)
  let end_frame := pyInt (seg_end * src_fps)
  let duration := seg_end - seg_start
  let desired := pyInt (duration * fps)
  let total := end_frame - start_frame
  let step :=
    if 0 < desired then ((total : ℚ) / (desired : ℚ)) * speed else 1
  previewLoop getFrame (applyProcessing dimensions crop_rect) end_frame
    desired step (previewFuel start_frame end_frame step) (start_frame : ℚ) 0

/-- Result type of `generate_preview`: with no loaded video the method
returns a bare empty list (line 622); otherwise it returns the pair
`(preview_frames, adjusted_fps)` (line 696). -/
inductive PreviewResult where
  | noVideo (frames : List Frame)
  | ok (frames : List Frame) (adjusted_fps : ℚ)
deriving DecidableEq, Repr

/-- The preview frame list computed by `generate_preview` (lines 629-694):
Python's `if segments:` is true exactly when `segments` is a non-`None`
nonempty list. -/
def previewComputedFrames (getFrame : ℤ → Option Frame) (src_fps : ℚ)
    (dimensions : ℕ × ℕ) (crop_rect : Option (ℕ × ℕ × ℕ × ℕ))
    (start_time end_time fps : ℚ) (segments : Option (List (ℚ × ℚ)))
    (speed : ℚ) : List Frame :=
  if segments.getD [] ≠ [] then
    (segments.getD []).foldl
      (fun acc seg =>
        acc ++ previewSegmentFrames getFrame src_fps dimensions crop_rect
          seg.1 seg.2 fps speed)
      []
  else
    previewSegmentFrames getFrame src_fps dimensions crop_rect start_time
      end_time fps speed

/-- `VideoProcessor.generate_preview` (lines 607-696). -/
def generate_preview (loaded : Bool) (getFrame : ℤ → Option Frame)
    (src_fps start_time end_time fps : ℚ) (dimensions : ℕ × ℕ)
    (crop_rect : Option (ℕ × ℕ × ℕ × ℕ)) (segments : Option (List (ℚ × ℚ)))
    (speed : ℚ) : PreviewResult :=
  if ¬ loaded then .noVideo []
  else
    let adjusted_fps := fps * speed
    .ok
      (previewComputedFrames getFrame src_fps dimensions crop_rect start_time
        end_time fps segments speed)
      adjusted_fps

/-- `MainWindow.save_file` (`src/main.py`, lines 539-609): with no preview
frames the method returns before any encode; otherwise it hands the preview
frames to `imageio.mimsave` with `fps = fps_spin * (speed_slider / 100)`
(line 564), the derived quantizer and the loop flag. -/
def save_file (preview_frames : List Frame)
    (fps_spin speed_slider quality_slider : ℤ) (loop : Bool) :
    Option EncodeCall :=
  if preview_frames = [] then none
  else
    some
      ⟨(fps_spin : ℚ) * ((speed_slider : ℚ) / 100),
        quantizer_level ((quality_slider : ℚ) / 100), loop_param loop,
        preview_frames⟩

/-!
# Theorems

Helper lemmas first, then one theorem per claim (with witnesses and
counterexamples where required).
-/

theorem pyInt_eq_floor {q : ℚ} (h : 0 ≤ q) : pyInt q = ⌊q⌋ := by
  rw [pyInt, Rat.floor_def]
  exact Int.tdiv_eq_ediv (Rat.num_nonneg.mpr h) (by exact_mod_cast Nat.zero_le q.den)

theorem sortPairs_sorted (l : List (ℚ × ℚ)) : List.Sorted pairLe (sortPairs l) :=
  List.sorted_insertionSort pairLe l

theorem mem_sortPairs {l : List (ℚ × ℚ)} {x : ℚ × ℚ} :
    x ∈ sortPairs l ↔ x ∈ l := by
  simp [sortPairs]

theorem sortPairs_eq_self {l : List (ℚ × ℚ)} (h : List.Sorted pairLe l) :
    sortPairs l = l :=
  h.insertionSort_eq

theorem sortPairs_eq_nil {l : List (ℚ × ℚ)} : sortPairs l = [] ↔ l = [] := by
  constructor
  · intro h
    have := List.length_insertionSort pairLe l
    rw [sortPairs] at h
    rw [h] at this
    exact List.length_eq_zero.mp this.symm
  · intro h; rw [h]; rfl

/-- C1: in `create_gif`, a segment of duration `d` sampled at target fps `r`
with speed factor `s > 0` is sampled at exactly `⌊d * r / s⌋` time offsets,
the offsets being `f * timeStep` for `f ∈ [0, frameCount)` with
`timeStep = d / frameCount`; a non-positive frame count contributes an empty
plan. -/
theorem samplePlan_floor_count (d r s : ℚ) (hd : 0 ≤ d) (hr : 0 ≤ r)
    (hs : 0 < s) :
    ((samplePlan d r s).length : ℤ) = ⌊d * r / s⌋ ∧
    samplePlan d r s =
      (List.range (⌊d * r / s⌋).toNat).map
        (fun (f : ℕ) => (f : ℚ) * (d / ((⌊d * r / s⌋ : ℤ) : ℚ))) ∧
    (⌊d * r / s⌋ ≤ 0 → samplePlan d r s = []) := by
  have harg : 0 ≤ d * r / s := div_nonneg (mul_nonneg hd hr) hs.le
  have hfloor : (0 : ℤ) ≤ ⌊d * r / s⌋ := Int.floor_nonneg.mpr harg
  have hpy : pyInt (d * r / s) = ⌊d * r / s⌋ := pyInt_eq_floor harg
  rcases eq_or_lt_of_le hfloor with h0 | hpos
  · have hplan : samplePlan d r s = [] := by
      simp only [samplePlan, hpy, ← h0]
      simp
    rw [hplan, ← h0]
    simp
  · have hplan : samplePlan d r s =
        (List.range (⌊d * r / s⌋).toNat).map
          (fun (f : ℕ) => (f : ℚ) * (d / ((⌊d * r / s⌋ : ℤ) : ℚ))) := by
      simp only [samplePlan, hpy, if_pos hpos]
      apply List.filter_eq_self.mpr
      intro t ht
      rw [List.mem_map] at ht
      obtain ⟨f, hf, rfl⟩ := ht
      rw [List.mem_range] at hf
      have hfle : (f : ℚ) ≤ ((⌊d * r / s⌋ : ℤ) : ℚ) := by
        have h1 : (f : ℤ) < ⌊d * r / s⌋ := Int.lt_toNat.mp hf
        exact_mod_cast h1.le
      have hfc0 : ((⌊d * r / s⌋ : ℤ) : ℚ) ≠ 0 :=
        Int.cast_ne_zero.mpr (ne_of_gt hpos)
      have hstep : (0 : ℚ) ≤ d / ((⌊d * r / s⌋ : ℤ) : ℚ) :=
        div_nonneg hd (by exact_mod_cast hfloor)
      simp only [decide_eq_true_eq]
      calc (f : ℚ) * (d / ((⌊d * r / s⌋ : ℤ) : ℚ))
          ≤ ((⌊d * r / s⌋ : ℤ) : ℚ) * (d / ((⌊d * r / s⌋ : ℤ) : ℚ)) :=
            mul_le_mul_of_nonneg_right hfle hstep
        _ = d := by
            rw [mul_div_assoc', mul_comm, mul_div_assoc, div_self hfc0, mul_one]
    refine ⟨?_, hplan, fun hle => absurd hpos (not_lt.mpr hle)⟩
    rw [hplan, List.length_map, List.length_range, Int.toNat_of_nonneg hfloor]

/-- Witness for C1 at `d = 2`, `r = 3`, `s = 2`. -/
theorem samplePlan_floor_count_witness :
    ((samplePlan 2 3 2).length : ℤ) = ⌊(2 * 3 / 2 : ℚ)⌋ :=
  (samplePlan_floor_count 2 3 2 (by norm_num) (by norm_num) (by norm_num)).1

theorem effFold_eq_walk (st et : ℚ) :
    ∀ (l : List (ℚ × ℚ)) (segs : List (ℚ × ℚ)) (cursor : ℚ),
      (if (l.foldl (effStep st et) (segs, cursor)).2 < et then
        (l.foldl (effStep st et) (segs, cursor)).1 ++
          [((l.foldl (effStep st et) (segs, cursor)).2, et)]
       else (l.foldl (effStep st et) (segs, cursor)).1) =
      segs ++ specSubtractWalk st et cursor l := by
  intro l
  induction l with
  | nil =>
    intro segs cursor
    simp only [List.foldl_nil, specSubtractWalk]
    split_ifs <;> simp
  | cons e l ih =>
    intro segs cursor
    rw [List.foldl_cons]
    by_cases hskip : e.2 ≤ st ∨ e.1 ≥ et
    · have hcond : ¬(e.2 > st ∧ e.1 < et) := by
        rintro ⟨h1, h2⟩
        rcases hskip with h | h
        · exact absurd h1 (not_lt.mpr h)
        · exact absurd h2 (not_lt.mpr h)
      have hstep : effStep st et (segs, cursor) e = (segs, cursor) := by
        simp only [effStep]
        rw [if_pos hskip]
      rw [hstep]
      rw [show specSubtractWalk st et cursor (e :: l) =
        specSubtractWalk st et cursor l by
          simp only [specSubtractWalk]; rw [if_neg hcond]]
      exact ih segs cursor
    · push_neg at hskip
      have hcond : e.2 > st ∧ e.1 < et := ⟨hskip.1, hskip.2⟩
      have hskip2 : ¬(e.2 ≤ st ∨ e.1 ≥ et) := by
        rintro (h | h)
        · exact absurd hskip.1 (not_lt.mpr h)
        · exact absurd hskip.2 (not_lt.mpr h)
      have hstep : effStep st et (segs, cursor) e =
          (if max e.1 st > cursor then segs ++ [(cursor, max e.1 st)]
           else segs, min e.2 et) := by
        simp only [effStep]
        rw [if_neg hskip2]
      rw [hstep, ih]
      rw [show specSubtractWalk st et cursor (e :: l) =
        (if max e.1 st > cursor then [(cursor, max e.1 st)] else []) ++
          specSubtractWalk st et (min e.2 et) l by
          simp only [specSubtractWalk]; rw [if_pos hcond]]
      split_ifs with hemit
      · simp
      · simp

theorem get_eff_eq_walk (st et : ℚ) (excl : List (ℚ × ℚ)) (h : excl ≠ []) :
    get_effective_segments st et excl =
      specSubtractWalk st et st (sortPairs excl) := by
  simp only [get_effective_segments]
  rw [if_neg h]
  have := effFold_eq_walk st et (sortPairs excl) [] st
  simpa using this

/-- C2: `get_effective_segments` implements the specification's interval
subtraction algorithm exactly (it coincides with the spec-worded walk
`spec_effectiveSegments` on all inputs); in particular, the primary range
`(0,10)` with excluded `[(2,4)]` yields `[(0,2),(4,10)]`, a single exclusion
covering the primary range yields the empty list, and exclusions lying
entirely outside the primary range leave `[primary]` unchanged. -/
theorem get_effective_segments_spec :
    (∀ (st et : ℚ) (excl : List (ℚ × ℚ)),
        get_effective_segments st et excl = spec_effectiveSegments st et excl) ∧
    get_effective_segments 0 10 [(2, 4)] = [(0, 2), (4, 10)] ∧
    (∀ (st et a b : ℚ), st < et → a ≤ st → et ≤ b →
        get_effective_segments st et [(a, b)] = []) ∧
    (∀ (st et : ℚ) (excl : List (ℚ × ℚ)), st < et →
        (∀ e ∈ excl, e.2 ≤ st ∨ e.1 ≥ et) →
        get_effective_segments st et excl = [(st, et)]) := by
  refine ⟨?_, by with_unfolding_all decide, ?_, ?_⟩
  · intro st et excl
    by_cases h : excl = []
    · rw [h]; rfl
    · rw [get_eff_eq_walk st et excl h, spec_effectiveSegments, if_neg h]
  · intro st et a b hst hra hrb
    rw [get_eff_eq_walk st et [(a, b)] (by simp)]
    have h1 : sortPairs [(a, b)] = [(a, b)] := rfl
    rw [h1]
    rw [show specSubtractWalk st et st [(a, b)] =
        (if max a st > st then [(st, max a st)] else []) ++
          specSubtractWalk st et (min b et) [] by
        simp only [specSubtractWalk]
        rw [if_pos ⟨lt_of_lt_of_le hst hrb, lt_of_le_of_lt hra hst⟩]]
    rw [max_eq_right hra, min_eq_right hrb]
    simp [specSubtractWalk, lt_irrefl]
  · intro st et excl hst hout
    by_cases h : excl = []
    · rw [h]; simp [get_effective_segments]
    · have hfold : ∀ (l : List (ℚ × ℚ)), (∀ e ∈ l, e.2 ≤ st ∨ e.1 ≥ et) →
          ∀ acc, l.foldl (effStep st et) acc = acc := by
        intro l
        induction l with
        | nil => intro _ acc; rfl
        | cons e l ih =>
          intro hl acc
          rw [List.foldl_cons]
          have hstep : effStep st et acc e = acc := by
            simp only [effStep]
            rw [if_pos (hl e (List.mem_cons_self e l))]
          rw [hstep]
          exact ih (fun x hx => hl x (List.mem_cons_of_mem e hx)) acc
      simp only [get_effective_segments]
      rw [if_neg h, hfold (sortPairs excl)
        (fun x hx => hout x (mem_sortPairs.mp hx)) ([], st)]
      simp [hst]

/-- Witness for C2: exclusions entirely outside `(0,10)` leave the primary
range unchanged. -/
theorem get_effective_segments_spec_witness :
    get_effective_segments 0 10 [(11, 12)] = [(0, 10)] :=
  get_effective_segments_spec.2.2.2 0 10 [(11, 12)] (by norm_num)
    (fun e he => by
      rw [List.mem_singleton] at he
      subst he
      exact Or.inr (by norm_num))

theorem pairLe_fst {a b : ℚ × ℚ} (h : pairLe a b) : a.1 ≤ b.1 := by
  rcases h with h | ⟨h, _⟩
  · exact h.le
  · exact h.le

theorem pairLe_snd_of_fst_eq {a b : ℚ × ℚ} (h : pairLe a b)
    (heq : a.1 = b.1) : a.2 ≤ b.2 := by
  rcases h with h | ⟨_, h2⟩
  · exact absurd h (heq ▸ lt_irrefl _)
  · exact h2

theorem mergeFold_reverse :
    ∀ (rest : List (ℚ × ℚ)) (a : ℚ × ℚ) (acc : List (ℚ × ℚ)),
      (rest.foldl mergeStep (a :: acc)).reverse =
        acc.reverse ++ mergeSortedRec a rest := by
  intro rest
  induction rest with
  | nil => intro a acc; simp [mergeSortedRec]
  | cons current rest ih =>
    intro a acc
    rw [List.foldl_cons]
    by_cases h : current.1 ≤ a.2
    · rw [show mergeStep (a :: acc) current = (a.1, max a.2 current.2) :: acc
        from by simp only [mergeStep]; rw [if_pos h]]
      rw [ih]
      rw [show mergeSortedRec a (current :: rest) =
        mergeSortedRec (a.1, max a.2 current.2) rest from by
          simp only [mergeSortedRec]; rw [if_pos h]]
    · rw [show mergeStep (a :: acc) current = current :: a :: acc
        from by simp only [mergeStep]; rw [if_neg h]]
      rw [ih current (a :: acc)]
      rw [show mergeSortedRec a (current :: rest) =
        a :: mergeSortedRec current rest from by
          simp only [mergeSortedRec]; rw [if_neg h]]
      simp

theorem merge_eq_nil {segments : List (ℚ × ℚ)} (h : sortPairs segments = []) :
    merge_overlapping_segments segments = [] := by
  unfold merge_overlapping_segments
  rw [h]

theorem merge_eq_rec {segments : List (ℚ × ℚ)} {s0 : ℚ × ℚ}
    {rest : List (ℚ × ℚ)} (h : sortPairs segments = s0 :: rest) :
    merge_overlapping_segments segments = mergeSortedRec s0 rest := by
  unfold merge_overlapping_segments
  rw [h]
  simpa using mergeFold_reverse rest s0 []

theorem chain'_pairLe_merge {a b : ℚ × ℚ} {rest : List (ℚ × ℚ)}
    (hab : pairLe a b) (hbrest : List.Chain' pairLe (b :: rest)) :
    List.Chain' pairLe ((a.1, max a.2 b.2) :: rest) := by
  rw [List.chain'_cons']
  refine ⟨?_, (List.chain'_cons'.mp hbrest).2⟩
  intro y hy
  have hby : pairLe b y := (List.chain'_cons'.mp hbrest).1 y hy
  have ha1b1 : a.1 ≤ b.1 := pairLe_fst hab
  have hb1y1 : b.1 ≤ y.1 := pairLe_fst hby
  rcases lt_or_eq_of_le (ha1b1.trans hb1y1) with hlt | heq
  · exact Or.inl hlt
  · have heq1 : a.1 = b.1 := le_antisymm ha1b1 (le_trans hb1y1 heq.ge)
    have heq2 : b.1 = y.1 := le_antisymm hb1y1 (le_trans heq.ge ha1b1)
    refine Or.inr ⟨heq, max_le ?_ ?_⟩
    · exact (pairLe_snd_of_fst_eq hab heq1).trans
        (pairLe_snd_of_fst_eq hby heq2)
    · exact pairLe_snd_of_fst_eq hby heq2

theorem mergeSortedRec_invariant :
    ∀ (l : List (ℚ × ℚ)) (a : ℚ × ℚ), List.Chain' pairLe (a :: l) →
      (∃ E t, mergeSortedRec a l = (a.1, E) :: t ∧ a.2 ≤ E) ∧
      List.Chain' (fun x y : ℚ × ℚ => x.2 < y.1) (mergeSortedRec a l) ∧
      List.Chain' pairLe (mergeSortedRec a l) := by
  intro l
  induction l with
  | nil =>
    intro a _
    exact ⟨⟨a.2, [], rfl, le_refl _⟩, List.chain'_singleton a,
      List.chain'_singleton a⟩
  | cons b rest ih =>
    intro a hchain
    obtain ⟨hab, hbrest⟩ := List.chain'_cons.mp hchain
    by_cases h : b.1 ≤ a.2
    · have hchain' := chain'_pairLe_merge hab hbrest
      obtain ⟨⟨E, t, heq, hle⟩, hsep, hsort⟩ := ih (a.1, max a.2 b.2) hchain'
      rw [show mergeSortedRec a (b :: rest) =
        mergeSortedRec (a.1, max a.2 b.2) rest from by
          simp only [mergeSortedRec]; rw [if_pos h]]
      exact ⟨⟨E, t, heq, le_trans (le_max_left _ _) hle⟩, hsep, hsort⟩
    · push_neg at h
      obtain ⟨⟨E, t, heq, hle⟩, hsep, hsort⟩ := ih b hbrest
      rw [show mergeSortedRec a (b :: rest) = a :: mergeSortedRec b rest
        from by simp only [mergeSortedRec]; rw [if_neg (not_le.mpr h)]]
      refine ⟨⟨a.2, mergeSortedRec b rest, rfl, le_refl _⟩, ?_, ?_⟩
      · rw [List.chain'_cons']
        refine ⟨?_, hsep⟩
        intro y hy
        rw [heq] at hy
        simp only [List.head?_cons, Option.mem_def, Option.some.injEq] at hy
        rw [← hy]
        exact h
      · rw [List.chain'_cons']
        refine ⟨?_, hsort⟩
        intro y hy
        rw [heq] at hy
        simp only [List.head?_cons, Option.mem_def, Option.some.injEq] at hy
        rw [← hy]
        have ha1b1 : a.1 ≤ b.1 := pairLe_fst hab
        rcases lt_or_eq_of_le ha1b1 with hlt | heqq
        · exact Or.inl hlt
        · exact Or.inr ⟨heqq, (pairLe_snd_of_fst_eq hab heqq).trans hle⟩

theorem merge_sorted_sep (segments : List (ℚ × ℚ)) :
    List.Chain' pairLe (merge_overlapping_segments segments) ∧
    List.Chain' (fun x y : ℚ × ℚ => x.2 < y.1)
      (merge_overlapping_segments segments) := by
  cases h : sortPairs segments with
  | nil => rw [merge_eq_nil h]; exact ⟨List.chain'_nil, List.chain'_nil⟩
  | cons s0 rest =>
    rw [merge_eq_rec h]
    have hch : List.Chain' pairLe (s0 :: rest) := by
      have hs := sortPairs_sorted segments
      rw [h] at hs
      exact hs.chain'
    obtain ⟨_, hsep, hsort⟩ := mergeSortedRec_invariant rest s0 hch
    exact ⟨hsort, hsep⟩

theorem mergeSortedRec_of_sep :
    ∀ (l : List (ℚ × ℚ)) (a : ℚ × ℚ),
      List.Chain' (fun x y : ℚ × ℚ => x.2 < y.1) (a :: l) →
      mergeSortedRec a l = a :: l := by
  intro l
  induction l with
  | nil => intro a _; rfl
  | cons b rest ih =>
    intro a hch
    obtain ⟨hab, hb⟩ := List.chain'_cons.mp hch
    rw [show mergeSortedRec a (b :: rest) = a :: mergeSortedRec b rest
      from by simp only [mergeSortedRec]; rw [if_neg (not_le.mpr hab)]]
    rw [ih b hb]

theorem merge_idempotent (segments : List (ℚ × ℚ)) :
    merge_overlapping_segments (merge_overlapping_segments segments) =
      merge_overlapping_segments segments := by
  have hsorted : List.Sorted pairLe (merge_overlapping_segments segments) :=
    List.chain'_iff_pairwise.mp (merge_sorted_sep segments).1
  have hself : sortPairs (merge_overlapping_segments segments) =
      merge_overlapping_segments segments := sortPairs_eq_self hsorted
  cases hm : merge_overlapping_segments segments with
  | nil => rfl
  | cons s0 rest =>
    rw [hm] at hself
    rw [merge_eq_rec hself]
    rw [mergeSortedRec_of_sep rest s0 (by
      have hs := (merge_sorted_sep segments).2
      rwa [hm] at hs)]

theorem coveredTime_cons (r : ℚ × ℚ) (l : List (ℚ × ℚ)) :
    coveredTime (r :: l) = Set.Icc r.1 r.2 ∪ coveredTime l := by
  ext x
  simp [coveredTime, List.mem_cons, Set.mem_iUnion, exists_eq_or_imp]

theorem coveredTime_sortPairs (l : List (ℚ × ℚ)) :
    coveredTime (sortPairs l) = coveredTime l := by
  ext x
  simp only [coveredTime, Set.mem_iUnion, exists_prop]
  exact exists_congr fun r => and_congr_left fun _ => mem_sortPairs

theorem Icc_union_of_overlap {a b : ℚ × ℚ} (h1 : a.1 ≤ b.1) (h3 : b.1 ≤ a.2) :
    Set.Icc a.1 (max a.2 b.2) = Set.Icc a.1 a.2 ∪ Set.Icc b.1 b.2 := by
  ext x
  simp only [Set.mem_Icc, Set.mem_union, le_max_iff]
  constructor
  · rintro ⟨hx1, hx2⟩
    by_cases hxa : x ≤ a.2
    · exact Or.inl ⟨hx1, hxa⟩
    · push_neg at hxa
      rcases hx2 with h | h
      · exact absurd h (not_le.mpr hxa)
      · exact Or.inr ⟨le_of_lt (lt_of_le_of_lt h3 hxa), h⟩
  · rintro (⟨u, v⟩ | ⟨u, v⟩)
    · exact ⟨u, Or.inl v⟩
    · exact ⟨h1.trans u, Or.inr v⟩

theorem coveredTime_mergeSortedRec :
    ∀ (l : List (ℚ × ℚ)) (a : ℚ × ℚ), List.Chain' pairLe (a :: l) →
      coveredTime (mergeSortedRec a l) = coveredTime (a :: l) := by
  intro l
  induction l with
  | nil => intro a _; rfl
  | cons b rest ih =>
    intro a hch
    obtain ⟨hab, hbrest⟩ := List.chain'_cons.mp hch
    by_cases h : b.1 ≤ a.2
    · rw [show mergeSortedRec a (b :: rest) =
        mergeSortedRec (a.1, max a.2 b.2) rest from by
          simp only [mergeSortedRec]; rw [if_pos h]]
      rw [ih (a.1, max a.2 b.2) (chain'_pairLe_merge hab hbrest)]
      rw [coveredTime_cons, coveredTime_cons, coveredTime_cons]
      rw [show ((a.1, max a.2 b.2) : ℚ × ℚ).1 = a.1 from rfl,
        show ((a.1, max a.2 b.2) : ℚ × ℚ).2 = max a.2 b.2 from rfl]
      rw [Icc_union_of_overlap (pairLe_fst hab) h, Set.union_assoc]
    · rw [show mergeSortedRec a (b :: rest) = a :: mergeSortedRec b rest
        from by simp only [mergeSortedRec]; rw [if_neg h]]
      rw [coveredTime_cons, coveredTime_cons, ih b hbrest]

/-- C6: `merge_overlapping_segments` returns a list sorted by start whose
ranges do not overlap (each range ends strictly before the next starts), it
is idempotent, and the union of time covered by the merged ranges equals the
union of time covered by the input ranges. -/
theorem merge_overlapping_segments_spec (segments : List (ℚ × ℚ)) :
    List.Chain' (fun x y : ℚ × ℚ => x.1 ≤ y.1)
      (merge_overlapping_segments segments) ∧
    List.Chain' (fun x y : ℚ × ℚ => x.2 < y.1)
      (merge_overlapping_segments segments) ∧
    merge_overlapping_segments (merge_overlapping_segments segments) =
      merge_overlapping_segments segments ∧
    coveredTime (merge_overlapping_segments segments) =
      coveredTime segments := by
  refine ⟨?_, (merge_sorted_sep segments).2, merge_idempotent segments, ?_⟩
  · exact List.Chain'.imp (fun a b hpl => pairLe_fst hpl)
      (merge_sorted_sep segments).1
  · cases h : sortPairs segments with
    | nil =>
      rw [merge_eq_nil h, ← coveredTime_sortPairs segments, h]
    | cons s0 rest =>
      rw [merge_eq_rec h, ← coveredTime_sortPairs segments, h]
      have hs := sortPairs_sorted segments
      rw [h] at hs
      exact coveredTime_mergeSortedRec rest s0 hs.chain'

theorem walk_cons_pos {st et c : ℚ} {e : ℚ × ℚ} {l : List (ℚ × ℚ)}
    (h : e.2 > st ∧ e.1 < et) :
    specSubtractWalk st et c (e :: l) =
      (if max e.1 st > c then [(c, max e.1 st)] else []) ++
        specSubtractWalk st et (min e.2 et) l := by
  simp only [specSubtractWalk]
  rw [if_pos h]

theorem walk_cons_neg {st et c : ℚ} {e : ℚ × ℚ} {l : List (ℚ × ℚ)}
    (h : ¬(e.2 > st ∧ e.1 < et)) :
    specSubtractWalk st et c (e :: l) = specSubtractWalk st et c l := by
  simp only [specSubtractWalk]
  rw [if_neg h]

theorem walk_merge_two (st et : ℚ) (hst : st < et) (a b : ℚ × ℚ)
    (rest : List (ℚ × ℚ)) (cursor : ℚ)
    (h1 : a.1 ≤ b.1) (h2 : a.2 ≤ b.2) (h3 : b.1 ≤ a.2) :
    specSubtractWalk st et cursor (((a.1, b.2) : ℚ × ℚ) :: rest) =
      specSubtractWalk st et cursor (a :: b :: rest) := by
  by_cases hA1 : a.1 < et
  · by_cases hB2 : st < b.2
    · rw [walk_cons_pos (e := ((a.1, b.2) : ℚ × ℚ)) ⟨hB2, hA1⟩]
      by_cases hA2 : st < a.2
      · rw [walk_cons_pos ⟨hA2, hA1⟩]
        by_cases hB1 : b.1 < et
        · rw [walk_cons_pos ⟨hB2, hB1⟩]
          have hnoemit : ¬(max b.1 st > min a.2 et) := by
            rw [not_lt]
            exact max_le (le_min h3 hB1.le) (le_min hA2.le hst.le)
          rw [if_neg hnoemit]
          simp
        · rw [walk_cons_neg (fun hc => hB1 hc.2)]
          have hb1et : et ≤ b.1 := not_lt.mp hB1
          have ha2et : et ≤ a.2 := le_trans hb1et h3
          have hb2et : et ≤ b.2 := le_trans ha2et h2
          rw [min_eq_right hb2et, min_eq_right ha2et]
      · have ha2st : a.2 ≤ st := not_lt.mp hA2
        rw [walk_cons_neg (fun hc => hA2 hc.1)]
        have hB1 : b.1 < et := lt_of_le_of_lt (le_trans h3 ha2st) hst
        rw [walk_cons_pos ⟨hB2, hB1⟩]
        have hma : max a.1 st = st :=
          max_eq_right (le_trans (le_trans h1 h3) ha2st)
        have hmb : max b.1 st = st := max_eq_right (le_trans h3 ha2st)
        rw [hma, hmb]
    · have hb2st : b.2 ≤ st := not_lt.mp hB2
      have ha2st : a.2 ≤ st := le_trans h2 hb2st
      rw [walk_cons_neg (e := ((a.1, b.2) : ℚ × ℚ)) (fun hc => hB2 hc.1),
        walk_cons_neg (fun hc => (not_lt.mpr ha2st) hc.1),
        walk_cons_neg (fun hc => hB2 hc.1)]
  · have ha1et : et ≤ a.1 := not_lt.mp hA1
    have hb1et : et ≤ b.1 := le_trans ha1et h1
    rw [walk_cons_neg (e := ((a.1, b.2) : ℚ × ℚ)) (fun hc => hA1 hc.2),
      walk_cons_neg (fun hc => hA1 hc.2),
      walk_cons_neg (fun hc => (not_lt.mpr hb1et) hc.2)]

theorem walk_mergeSortedRec (st et : ℚ) (hst : st < et) :
    ∀ (l : List (ℚ × ℚ)) (a : ℚ × ℚ),
      List.Chain' pairLe (a :: l) →
      List.Chain' (fun x y : ℚ × ℚ => x.2 ≤ y.2) (a :: l) →
      ∀ cursor, specSubtractWalk st et cursor (mergeSortedRec a l) =
        specSubtractWalk st et cursor (a :: l) := by
  intro l
  induction l with
  | nil => intro a _ _ cursor; rfl
  | cons b rest ih =>
    intro a hlex hmono cursor
    obtain ⟨hab, hbrest⟩ := List.chain'_cons.mp hlex
    obtain ⟨hab2, hbrest2⟩ := List.chain'_cons.mp hmono
    by_cases h : b.1 ≤ a.2
    · have hmax : max a.2 b.2 = b.2 := max_eq_right hab2
      rw [show mergeSortedRec a (b :: rest) =
        mergeSortedRec (a.1, b.2) rest from by
          simp only [mergeSortedRec]; rw [if_pos h, hmax]]
      have hlex' : List.Chain' pairLe (((a.1, b.2) : ℚ × ℚ) :: rest) := by
        have hcm := chain'_pairLe_merge hab hbrest
        rwa [hmax] at hcm
      have hmono' : List.Chain' (fun x y : ℚ × ℚ => x.2 ≤ y.2)
          (((a.1, b.2) : ℚ × ℚ) :: rest) := by
        rw [List.chain'_cons']
        exact ⟨fun y hy => (List.chain'_cons'.mp hbrest2).1 y hy,
          (List.chain'_cons'.mp hbrest2).2⟩
      rw [ih (a.1, b.2) hlex' hmono' cursor]
      exact walk_merge_two st et hst a b rest cursor (pairLe_fst hab) hab2 h
    · push_neg at h
      rw [show mergeSortedRec a (b :: rest) = a :: mergeSortedRec b rest
        from by simp only [mergeSortedRec]; rw [if_neg (not_le.mpr h)]]
      by_cases hc : a.2 > st ∧ a.1 < et
      · rw [walk_cons_pos hc, walk_cons_pos hc,
          ih b hbrest hbrest2 (min a.2 et)]
      · rw [walk_cons_neg hc, walk_cons_neg hc, ih b hbrest hbrest2 cursor]

/-- C5 counterexample: with primary range `(0,10)` and the unmerged, nested
excluded set `[(1,5),(2,3)]`, `get_effective_segments` yields
`[(0,1),(3,10)]` while its result on the merged equivalent `[(1,5)]` is
`[(0,1),(5,10)]`: the two results differ, refuting the claim for nested
exclusions. -/
theorem get_effective_segments_merge_counterexample :
    get_effective_segments 0 10 [(1, 5), (2, 3)] = [(0, 1), (3, 10)] ∧
    merge_overlapping_segments [(1, 5), (2, 3)] = [(1, 5)] ∧
    get_effective_segments 0 10 (merge_overlapping_segments [(1, 5), (2, 3)]) =
      [(0, 1), (5, 10)] ∧
    get_effective_segments 0 10 [(1, 5), (2, 3)] ≠
      get_effective_segments 0 10
        (merge_overlapping_segments [(1, 5), (2, 3)]) := by
  refine ⟨?_, ?_, ?_, ?_⟩ <;> with_unfolding_all decide

/-- C5 (amended): for every primary range `(st, et)` with `st < et` and
every excluded set whose sorted form has non-decreasing end times (this
admits overlapping, touching and duplicate exclusions, and excludes exactly
the ranges nested strictly inside an earlier one), `get_effective_segments`
produces the same result as on the merged equivalent of the excluded set. -/
theorem get_effective_segments_merge_invariant (st et : ℚ)
    (excl : List (ℚ × ℚ)) (hpr : st < et)
    (hmono : List.Chain' (fun x y : ℚ × ℚ => x.2 ≤ y.2) (sortPairs excl)) :
    get_effective_segments st et excl =
      get_effective_segments st et (merge_overlapping_segments excl) := by
  by_cases h : excl = []
  · rw [h]; rfl
  · rcases hs : sortPairs excl with _ | ⟨s0, rest⟩
    · exact absurd (sortPairs_eq_nil.mp hs) h
    · have hmerge : merge_overlapping_segments excl = mergeSortedRec s0 rest :=
        merge_eq_rec hs
      have hlex : List.Chain' pairLe (s0 :: rest) := by
        have hsp := sortPairs_sorted excl
        rw [hs] at hsp
        exact hsp.chain'
      have hmono' : List.Chain' (fun x y : ℚ × ℚ => x.2 ≤ y.2) (s0 :: rest) := by
        rwa [hs] at hmono
      have hmne : merge_overlapping_segments excl ≠ [] := by
        rw [hmerge]
        obtain ⟨E, t, heq, _⟩ := (mergeSortedRec_invariant rest s0 hlex).1
        rw [heq]
        simp
      rw [get_eff_eq_walk st et excl h, get_eff_eq_walk st et _ hmne]
      have hmsorted : List.Sorted pairLe (merge_overlapping_segments excl) :=
        List.chain'_iff_pairwise.mp (merge_sorted_sep excl).1
      rw [hs, sortPairs_eq_self hmsorted, hmerge]
      exact (walk_mergeSortedRec st et hpr rest s0 hlex hmono' st).symm

/-- Witness for C5 (amended) at primary `(0,10)` and overlapping, non-nested
exclusions `[(2,4),(3,6)]`. -/
theorem get_effective_segments_merge_invariant_witness :
    get_effective_segments 0 10 [(2, 4), (3, 6)] =
      get_effective_segments 0 10
        (merge_overlapping_segments [(2, 4), (3, 6)]) :=
  get_effective_segments_merge_invariant 0 10 [(2, 4), (3, 6)] (by norm_num)
    (by
      rw [show sortPairs [(2, 4), (3, 6)] = [(2, 4), (3, 6)] from by
        with_unfolding_all decide]
      exact List.chain'_cons.mpr ⟨by norm_num, List.chain'_singleton _⟩)


theorem segmentFix_c (tw th : ℕ) (fr : Frame) :
    (segmentFix tw th fr).c = fr.c := by
  unfold segmentFix
  split_ifs <;> rfl

theorem extractFrames_mem {decode : ℚ → Option Frame} {fix : Frame → Frame}
    {d : ℚ} {fc : ℤ} {fr : Frame} (h : fr ∈ extractFrames decode fix d fc) :
    ∃ t fr0, decode t = some fr0 ∧ fr = fix fr0 := by
  unfold extractFrames at h
  split_ifs at h with hfc
  · rw [List.mem_filterMap] at h
    obtain ⟨f, _, hsome⟩ := h
    split_ifs at hsome
    rw [Option.map_eq_some'] at hsome
    obtain ⟨fr0, hd, hfix⟩ := hsome
    exact ⟨_, fr0, hd, hfix.symm⟩
  · simp at h

theorem filterToFirstShape_subset {l : List Frame} {fr : Frame}
    (h : fr ∈ filterToFirstShape l) : fr ∈ l := by
  cases l with
  | nil => simp [filterToFirstShape] at h
  | cons f0 t =>
    simp only [filterToFirstShape] at h
    exact List.mem_of_mem_filter h

theorem appendSegmentFrames_c {a s : List Frame}
    (ha : ∀ fr ∈ a, fr.c = 3) (hs : ∀ fr ∈ s, fr.c = 3) :
    ∀ fr ∈ appendSegmentFrames a s, fr.c = 3 := by
  intro fr hfr
  cases s with
  | nil =>
    simp only [appendSegmentFrames] at hfr
    exact ha fr hfr
  | cons s0 st =>
    cases a with
    | nil =>
      simp only [appendSegmentFrames, List.nil_append] at hfr
      exact hs fr hfr
    | cons a0 at' =>
      simp only [appendSegmentFrames] at hfr
      split_ifs at hfr
      · rw [List.mem_append] at hfr
        rcases hfr with hfr | hfr
        · exact ha fr hfr
        · rw [List.mem_map] at hfr
          obtain ⟨fr0, hfr0, rfl⟩ := hfr
          rw [show (cv2Resize a0.w a0.h fr0).c = fr0.c from rfl]
          exact hs fr0 hfr0
      · rw [List.mem_append] at hfr
        rcases hfr with hfr | hfr
        · exact ha fr hfr
        · exact hs fr hfr

theorem assembleAllFrames_c (decode : ℚ × ℚ → ℚ → Option Frame)
    (hdec : ∀ s t fr, decode s t = some fr → fr.c = 3)
    (segs : List (ℚ × ℚ)) (fps : ℚ) (tw th : ℕ) (speed : ℚ) :
    ∀ fr ∈ assembleAllFrames decode segs fps tw th speed, fr.c = 3 := by
  suffices hgen : ∀ (l : List (ℚ × ℚ)) (acc : List Frame),
      (∀ fr ∈ acc, fr.c = 3) →
      ∀ fr ∈ l.foldl
        (fun all_frames seg =>
          let seg_duration := seg.2 - seg.1
          let frame_count := pyInt (seg_duration * fps / speed)
          let segment_frames :=
            extractFrames (decode seg) (segmentFix tw th) seg_duration
              frame_count
          appendSegmentFrames all_frames (filterToFirstShape segment_frames))
        acc, fr.c = 3 by
    exact hgen segs [] (by simp)
  intro l
  induction l with
  | nil => intro acc hacc fr hfr; exact hacc fr hfr
  | cons seg rest ih =>
    intro acc hacc
    rw [List.foldl_cons]
    apply ih
    apply appendSegmentFrames_c hacc
    intro fr hfr
    obtain ⟨t, fr0, hd, rfl⟩ :=
      extractFrames_mem (filterToFirstShape_subset hfr)
    rw [segmentFix_c]
    exact hdec seg t fr0 hd

theorem compatPass_cons (a : Frame) (t : List Frame) :
    compatPass (a :: t) =
      a :: t.map (fun fr => if fr = a then fr else cv2Resize a.w a.h fr) := by
  simp [compatPass]

theorem compatPass_uniform {l : List Frame} {b : Frame}
    (h0 : l.head? = some b) (hc : ∀ fr ∈ l, fr.c = b.c) :
    (compatPass l).head? = some b ∧ ∀ fr ∈ compatPass l, fr = b := by
  cases l with
  | nil => simp at h0
  | cons a t =>
    have ha : a = b := by simpa using h0
    subst ha
    rw [compatPass_cons]
    refine ⟨rfl, ?_⟩
    intro fr hfr
    rw [List.mem_cons] at hfr
    rcases hfr with hfr | hfr
    · exact hfr
    · rw [List.mem_map] at hfr
      obtain ⟨x, hx, rfl⟩ := hfr
      by_cases hxa : x = a
      · simp [hxa]
      · rw [if_neg hxa]
        have hxc : x.c = a.c := hc x (List.mem_cons_of_mem a hx)
        show (⟨a.h, a.w, x.c⟩ : Frame) = a
        rw [hxc]

theorem createGifSegments_eq_nil {decode : ℚ × ℚ → ℚ → Option Frame}
    {segs : List (ℚ × ℚ)} {fps : ℚ} {tw th : ℕ} {quality : ℚ} {loop : Bool}
    {speed : ℚ}
    (hall : assembleAllFrames decode segs fps tw th speed = []) :
    createGifSegments decode segs fps tw th quality loop speed =
      (none, assembleProgress decode segs fps speed) := by
  unfold createGifSegments
  rw [hall]

theorem createGifSegments_eq_cons {decode : ℚ × ℚ → ℚ → Option Frame}
    {segs : List (ℚ × ℚ)} {fps : ℚ} {tw th : ℕ} {quality : ℚ} {loop : Bool}
    {speed : ℚ} {a : Frame} {t : List Frame}
    (hall : assembleAllFrames decode segs fps tw th speed = a :: t) :
    createGifSegments decode segs fps tw th quality loop speed =
      (some ⟨fps, quantizer_level quality, loop_param loop,
        a :: t.map (fun fr => if fr = a then fr else cv2Resize a.w a.h fr)⟩,
        assembleProgress decode segs fps speed ++ [90, 100]) := by
  unfold createGifSegments
  rw [hall]
  simp [compatPass_cons]

theorem fix_ite_comm (sample : Frame) :
    (fun fr => if fr = sample then fr else cv2Resize sample.w sample.h fr) =
      (fun fr => if fr ≠ sample then cv2Resize sample.w sample.h fr
        else fr) := by
  funext fr
  rw [ite_not]

theorem createGifSingleSpeed_eq_cons {decode : ℚ → Option Frame}
    {seg_duration fps quality : ℚ} {loop : Bool} {speed : ℚ}
    {sample a : Frame} {t : List Frame}
    (h0 : decode 0 = some sample)
    (hfr : extractFrames decode
      (fun fr => if fr ≠ sample then cv2Resize sample.w sample.h fr else fr)
      seg_duration (pyInt (seg_duration * fps / speed)) = a :: t) :
    createGifSingleSpeed decode seg_duration fps quality loop speed =
      (some ⟨fps, quantizer_level quality, loop_param loop,
        a :: t.map (fun fr => if fr = a then fr else cv2Resize a.w a.h fr)⟩,
        extractProgress decode
          (fun f => min 89
            (pyInt (30 +
              (f : ℚ) / ((pyInt (seg_duration * fps / speed)) : ℚ) * 60)))
          seg_duration (pyInt (seg_duration * fps / speed)) ++ [80, 100]) := by
  unfold createGifSingleSpeed
  rw [h0]
  rw [← fix_ite_comm] at hfr
  simp [hfr, compatPass_cons]

/-- C3: assuming every decoded frame has the 3 colour channels of a
`FrameBuffer` (data model, spec section 3), every frame sequence that
`create_gif` hands to the encoder — in the multi-segment branch and in the
single-segment speed branch — has all elements equal to the sequence's first
frame, i.e. of one identical `(height, width, channels)` shape. -/
theorem create_gif_frames_uniform_shape :
    (∀ (decode : ℚ × ℚ → ℚ → Option Frame),
      (∀ s t fr, decode s t = some fr → fr.c = 3) →
      ∀ (segs : List (ℚ × ℚ)) (fps : ℚ) (tw th : ℕ) (quality : ℚ)
        (loop : Bool) (speed : ℚ) (enc : EncodeCall) (trace : List ℤ),
        createGifSegments decode segs fps tw th quality loop speed =
          (some enc, trace) →
        ∃ f0, enc.frames.head? = some f0 ∧ ∀ fr ∈ enc.frames, fr = f0) ∧
    (∀ (decode : ℚ → Option Frame),
      (∀ t fr, decode t = some fr → fr.c = 3) →
      ∀ (seg_duration fps quality : ℚ) (loop : Bool) (speed : ℚ)
        (enc : EncodeCall) (trace : List ℤ),
        createGifSingleSpeed decode seg_duration fps quality loop speed =
          (some enc, trace) →
        ∃ f0, enc.frames.head? = some f0 ∧ ∀ fr ∈ enc.frames, fr = f0) := by
  constructor
  · intro decode hdec segs fps tw th quality loop speed enc trace hsucc
    cases hall : assembleAllFrames decode segs fps tw th speed with
    | nil =>
      rw [createGifSegments_eq_nil hall] at hsucc
      simp at hsucc
    | cons a t =>
      rw [createGifSegments_eq_cons hall] at hsucc
      simp only [Prod.mk.injEq, Option.some.injEq] at hsucc
      obtain ⟨henc, -⟩ := hsucc
      have hchan : ∀ fr ∈ (a :: t), fr.c = a.c := by
        intro fr hfr
        have h3 := assembleAllFrames_c decode hdec segs fps tw th speed
        rw [hall] at h3
        rw [h3 fr hfr, h3 a (List.mem_cons_self a t)]
      have huni := compatPass_uniform (l := a :: t) (b := a) rfl hchan
      rw [compatPass_cons] at huni
      exact ⟨a, by rw [← henc]; exact huni.1, by rw [← henc]; exact huni.2⟩
  · intro decode hdec seg_duration fps quality loop speed enc trace hsucc
    cases hdec0 : decode 0 with
    | none =>
      unfold createGifSingleSpeed at hsucc
      rw [hdec0] at hsucc
      simp at hsucc
    | some sample =>
      cases hfr : extractFrames decode
          (fun fr => if fr ≠ sample then cv2Resize sample.w sample.h fr
            else fr) seg_duration (pyInt (seg_duration * fps / speed)) with
      | nil =>
        unfold createGifSingleSpeed at hsucc
        rw [hdec0] at hsucc
        rw [← fix_ite_comm] at hfr
        simp [hfr] at hsucc
      | cons a t =>
        rw [createGifSingleSpeed_eq_cons hdec0 hfr] at hsucc
        simp only [Prod.mk.injEq, Option.some.injEq] at hsucc
        obtain ⟨henc, -⟩ := hsucc
        have hall3 : ∀ fr ∈ (a :: t), fr.c = 3 := by
          intro fr hfrm
          rw [← hfr] at hfrm
          obtain ⟨t0, fr0, hd, rfl⟩ := extractFrames_mem hfrm
          have h0 : fr0.c = 3 := hdec t0 fr0 hd
          by_cases hne : fr0 ≠ sample
          · rw [if_pos hne]
            exact h0
          · rw [if_neg hne]
            exact h0
        have hchan : ∀ fr ∈ (a :: t), fr.c = a.c := by
          intro fr hfrm
          rw [hall3 fr hfrm, hall3 a (List.mem_cons_self a t)]
        have huni := compatPass_uniform (l := a :: t) (b := a) rfl hchan
        rw [compatPass_cons] at huni
        exact ⟨a, by rw [← henc]; exact huni.1, by rw [← henc]; exact huni.2⟩

/-- Witness for C3 on a concrete one-segment run whose decoded frames all
have shape `(3, 4, 3)`. -/
theorem create_gif_frames_uniform_shape_witness :
    ∃ f0,
      (EncodeCall.frames
        ⟨10, 50, 0, List.replicate 10 ⟨3, 4, 3⟩⟩).head? = some f0 ∧
      ∀ fr ∈ EncodeCall.frames ⟨10, 50, 0, List.replicate 10 ⟨3, 4, 3⟩⟩,
        fr = f0 :=
  create_gif_frames_uniform_shape.1 (fun _ _ => some ⟨3, 4, 3⟩)
    (fun _ _ fr hfr => by cases hfr; rfl) [(0, 1)] 10 4 3 (1 / 2) true 1
    ⟨10, 50, 0, List.replicate 10 ⟨3, 4, 3⟩⟩ [0, 40, 65, 90, 100]
    (by with_unfolding_all decide)

/-- C9: in the multi-segment branch of `create_gif`, the run fails (returns
`False`, modelled as `none`) exactly when zero frames were assembled across
all segments, and an encoder call, when it happens, never receives an empty
frame sequence. -/
theorem createGifSegments_zero_frames (decode : ℚ × ℚ → ℚ → Option Frame)
    (segs : List (ℚ × ℚ)) (fps : ℚ) (tw th : ℕ) (quality : ℚ) (loop : Bool)
    (speed : ℚ) :
    ((createGifSegments decode segs fps tw th quality loop speed).1 = none ↔
      assembleAllFrames decode segs fps tw th speed = []) ∧
    (∀ enc trace,
      createGifSegments decode segs fps tw th quality loop speed =
        (some enc, trace) → enc.frames ≠ []) := by
  cases hall : assembleAllFrames decode segs fps tw th speed with
  | nil =>
    rw [createGifSegments_eq_nil hall]
    exact ⟨by simp, fun enc trace h => by simp at h⟩
  | cons a t =>
    rw [createGifSegments_eq_cons hall]
    constructor
    · simp
    · intro enc trace h
      simp only [Prod.mk.injEq, Option.some.injEq] at h
      rw [← h.1]
      simp

/-- Witness for C9: a run in which every decode fails produces zero frames
and returns the failure outcome. -/
theorem createGifSegments_zero_frames_witness :
    (createGifSegments (fun _ _ => none) [(0, 1)] 10 2 2 (1 / 2) true 1).1 =
      none :=
  (createGifSegments_zero_frames (fun _ _ => none) [(0, 1)] 10 2 2 (1 / 2)
    true 1).1.mpr (by with_unfolding_all decide)

theorem mem_foldl_append {α β : Type} (g : α → List β) :
    ∀ (l : List α) (init : List β) (p : β),
      (p ∈ l.foldl (fun acc x => acc ++ g x) init ↔
        p ∈ init ∨ ∃ x ∈ l, p ∈ g x) := by
  intro l
  induction l with
  | nil => intro init p; simp
  | cons x xs ih =>
    intro init p
    rw [List.foldl_cons, ih]
    constructor
    · rintro (h | ⟨y, hy, hgy⟩)
      · rw [List.mem_append] at h
        rcases h with h | h
        · exact Or.inl h
        · exact Or.inr ⟨x, List.mem_cons_self x xs, h⟩
      · exact Or.inr ⟨y, List.mem_cons_of_mem x hy, hgy⟩
    · rintro (h | ⟨y, hy, hgy⟩)
      · exact Or.inl (by rw [List.mem_append]; exact Or.inl h)
      · rw [List.mem_cons] at hy
        rcases hy with rfl | hy
        · exact Or.inl (by rw [List.mem_append]; exact Or.inr hgy)
        · exact Or.inr ⟨y, hy, hgy⟩

theorem assembleProgress_mem (decode : ℚ × ℚ → ℚ → Option Frame)
    (segs : List (ℚ × ℚ)) (fps speed : ℚ) (p : ℤ) :
    p ∈ assembleProgress decode segs fps speed ↔
      ∃ x ∈ segs.enum,
        p ∈ (pyInt ((x.1 : ℚ) / (segs.length : ℚ) * 40) ::
          extractProgress (decode x.2)
            (multiSegProg x.1 segs.length
              (pyInt ((x.2.2 - x.2.1) * fps / speed)))
            (x.2.2 - x.2.1) (pyInt ((x.2.2 - x.2.1) * fps / speed))) := by
  have h := mem_foldl_append
    (g := fun x : ℕ × (ℚ × ℚ) =>
      pyInt ((x.1 : ℚ) / (segs.length : ℚ) * 40) ::
        extractProgress (decode x.2)
          (multiSegProg x.1 segs.length
            (pyInt ((x.2.2 - x.2.1) * fps / speed)))
          (x.2.2 - x.2.1) (pyInt ((x.2.2 - x.2.1) * fps / speed)))
    segs.enum [] p
  simpa [assembleProgress] using h

theorem extractProgress_mem {decode : ℚ → Option Frame} {prog : ℕ → ℤ}
    {d : ℚ} {fc : ℤ} {p : ℤ} (h : p ∈ extractProgress decode prog d fc) :
    0 < fc ∧ ∃ f : ℕ, f < fc.toNat ∧ p = prog f := by
  unfold extractProgress at h
  split_ifs at h with hfc
  · rw [List.mem_filterMap] at h
    obtain ⟨f, hf, hsome⟩ := h
    rw [List.mem_range] at hf
    split_ifs at hsome
    exact ⟨hfc, f, hf, (Option.some.inj hsome).symm⟩
  · simp at h

theorem multiSegProg_bounds (i n : ℕ) (fc : ℤ) (f : ℕ) (hfc : 0 < fc) :
    0 ≤ multiSegProg i n fc f ∧ multiSegProg i n fc f ≤ 100 := by
  unfold multiSegProg
  have h1 : (0 : ℚ) ≤ (i : ℚ) / (n : ℚ) := by positivity
  have h2 : (0 : ℚ) ≤ (f : ℚ) / (fc : ℚ) :=
    div_nonneg (by positivity) (by exact_mod_cast hfc.le)
  have h3 : (0 : ℚ) ≤ ((f : ℚ) / (fc : ℚ)) / (n : ℚ) :=
    div_nonneg h2 (by positivity)
  have harg : (0 : ℚ) ≤
      40 + ((i : ℚ) / (n : ℚ) + ((f : ℚ) / (fc : ℚ)) / (n : ℚ)) * 50 := by
    nlinarith
  constructor
  · exact le_min (by norm_num)
      (by rw [pyInt_eq_floor harg]; exact Int.floor_nonneg.mpr harg)
  · exact le_trans (min_le_left _ _) (by norm_num)

theorem header_bounds (i n : ℕ) (hi : i < n) :
    0 ≤ pyInt ((i : ℚ) / (n : ℚ) * 40) ∧
      pyInt ((i : ℚ) / (n : ℚ) * 40) ≤ 100 := by
  have hn : 0 < n := lt_of_le_of_lt (Nat.zero_le i) hi
  have h0 : (0 : ℚ) ≤ (i : ℚ) / (n : ℚ) * 40 := by positivity
  have h1 : (i : ℚ) / (n : ℚ) ≤ 1 := by
    rw [div_le_one (by exact_mod_cast hn)]
    exact_mod_cast hi.le
  rw [pyInt_eq_floor h0]
  refine ⟨Int.floor_nonneg.mpr h0, ?_⟩
  have h40 : (i : ℚ) / (n : ℚ) * 40 ≤ 40 := by nlinarith
  calc ⌊(i : ℚ) / (n : ℚ) * 40⌋ ≤ ⌊(40 : ℚ)⌋ := Int.floor_le_floor h40
    _ ≤ 100 := by norm_num

theorem mem_enum_fst_lt {α : Type} {l : List α} {x : ℕ × α}
    (h : x ∈ l.enum) : x.1 < l.length := by
  rw [List.enum_eq_zip_range] at h
  have hm := (List.of_mem_zip h).1
  simpa using hm

/-- C8 counterexample: on a successful two-segment run the progress
callback receives the sequence `[0,40,46,52,58,20,65,71,77,83,90,100]`,
which decreases from 58 to 20 at the second segment's header report, so the
claimed global monotonicity fails. -/
theorem create_gif_progress_counterexample :
    (create_gif true (fun _ _ => some ⟨3, 4, 3⟩) [(0, 2), (2, 4)] 10 4 3
        (1 / 2) true 1).2 = [0, 40, 46, 52, 58, 20, 65, 71, 77, 83, 90, 100] ∧
    (create_gif true (fun _ _ => some ⟨3, 4, 3⟩) [(0, 2), (2, 4)] 10 4 3
        (1 / 2) true 1).1.isSome = true ∧
    ¬ List.Chain' (fun p q : ℤ => p ≤ q)
        (create_gif true (fun _ _ => some ⟨3, 4, 3⟩) [(0, 2), (2, 4)] 10 4 3
          (1 / 2) true 1).2 := by
  refine ⟨by with_unfolding_all decide, by with_unfolding_all decide, ?_⟩
  intro h
  rw [show (create_gif true (fun _ _ => some ⟨3, 4, 3⟩) [(0, 2), (2, 4)] 10 4
      3 (1 / 2) true 1).2 = [0, 40, 46, 52, 58, 20, 65, 71, 77, 83, 90, 100]
    from by with_unfolding_all decide] at h
  norm_num [List.chain'_cons] at h

/-- C8 (amended): every value handed to the progress callback by
`create_gif` lies in `[0, 100]`; on a successful run the last reported value
is 100; and with no loaded video the method fails before any callback.
The original claim's global monotonicity does not hold (see the
counterexample): the sequence drops at each later segment's header report. -/
theorem create_gif_progress_spec :
    (∀ (decode : ℚ × ℚ → ℚ → Option Frame) (segs : List (ℚ × ℚ)) (fps : ℚ)
        (tw th : ℕ) (quality : ℚ) (loop : Bool) (speed : ℚ),
        ∀ p ∈ (create_gif true decode segs fps tw th quality loop speed).2,
          0 ≤ p ∧ p ≤ 100) ∧
    (∀ (decode : ℚ × ℚ → ℚ → Option Frame) (segs : List (ℚ × ℚ)) (fps : ℚ)
        (tw th : ℕ) (quality : ℚ) (loop : Bool) (speed : ℚ)
        (enc : EncodeCall) (trace : List ℤ),
        create_gif true decode segs fps tw th quality loop speed =
          (some enc, trace) → trace.getLast? = some 100) ∧
    (∀ (decode : ℚ × ℚ → ℚ → Option Frame) (segs : List (ℚ × ℚ)) (fps : ℚ)
        (tw th : ℕ) (quality : ℚ) (loop : Bool) (speed : ℚ),
        create_gif false decode segs fps tw th quality loop speed =
          (none, [])) := by
  have hmem : ∀ (decode : ℚ × ℚ → ℚ → Option Frame) (segs : List (ℚ × ℚ))
      (fps speed : ℚ), ∀ p ∈ assembleProgress decode segs fps speed,
      0 ≤ p ∧ p ≤ 100 := by
    intro decode segs fps speed p hp
    rw [assembleProgress_mem] at hp
    obtain ⟨x, hx, hpin⟩ := hp
    rw [List.mem_cons] at hpin
    rcases hpin with rfl | hpin
    · exact header_bounds x.1 segs.length (mem_enum_fst_lt hx)
    · obtain ⟨hfc, f, _, rfl⟩ := extractProgress_mem hpin
      exact multiSegProg_bounds x.1 segs.length _ f hfc
  refine ⟨?_, ?_, ?_⟩
  · intro decode segs fps tw th quality loop speed p hp
    rw [show create_gif true decode segs fps tw th quality loop speed =
      createGifSegments decode segs fps tw th quality loop speed from rfl] at hp
    cases hall : assembleAllFrames decode segs fps tw th speed with
    | nil =>
      rw [createGifSegments_eq_nil hall] at hp
      exact hmem decode segs fps speed p hp
    | cons a t =>
      rw [createGifSegments_eq_cons hall] at hp
      simp only [List.mem_append, List.mem_cons] at hp
      rcases hp with hp | hp | hp | hp
      · exact hmem decode segs fps speed p hp
      · rw [hp]; norm_num
      · rw [hp]; norm_num
      · simp at hp
  · intro decode segs fps tw th quality loop speed enc trace hsucc
    rw [show create_gif true decode segs fps tw th quality loop speed =
      createGifSegments decode segs fps tw th quality loop speed from rfl]
      at hsucc
    cases hall : assembleAllFrames decode segs fps tw th speed with
    | nil =>
      rw [createGifSegments_eq_nil hall] at hsucc
      simp at hsucc
    | cons a t =>
      rw [createGifSegments_eq_cons hall] at hsucc
      simp only [Prod.mk.injEq, Option.some.injEq] at hsucc
      rw [← hsucc.2]
      rw [show assembleProgress decode segs fps speed ++ [90, 100] =
        (assembleProgress decode segs fps speed ++ [90]) ++ [100] by simp]
      exact List.getLast?_concat _
  · intro decode segs fps tw th quality loop speed
    rfl

/-- Witness for C8 (amended): the concrete successful run's progress trace
ends at 100. -/
theorem create_gif_progress_spec_witness :
    ([0, 40, 65, 90, 100] : List ℤ).getLast? = some 100 :=
  create_gif_progress_spec.2.1 (fun _ _ => some ⟨3, 4, 3⟩) [(0, 1)] 10 4 3
    (1 / 2) true 1 ⟨10, 50, 0, List.replicate 10 ⟨3, 4, 3⟩⟩
    [0, 40, 65, 90, 100] (by with_unfolding_all decide)

/-- C7 counterexample: at the in-range quality `1/8`, the quantizer actually
passed to the encoder is `int(100 - 12.5) = 87` (truncation), while the
claimed formula `round(100 - quality*100)` gives 88. -/
theorem quantizer_round_counterexample :
    ((0 : ℚ) ≤ 1 / 8 ∧ (1 / 8 : ℚ) ≤ 1) ∧
    quantizer_level (1 / 8) = 87 ∧
    round (100 - (1 / 8 : ℚ) * 100) = 88 ∧
    quantizer_level (1 / 8) ≠ round (100 - (1 / 8 : ℚ) * 100) := by
  have h1 : quantizer_level (1 / 8) = 87 := by with_unfolding_all decide
  have h2 : round (100 - (1 / 8 : ℚ) * 100) = 88 := by norm_num [round_eq]
  refine ⟨⟨by norm_num, by norm_num⟩, h1, h2, ?_⟩
  rw [h1, h2]
  norm_num

/-- C7 (amended): at every encoder invocation the quantization level equals
`⌊100 - quality*100⌋` — truncation, not rounding; the two agree exactly when
`quality*100` is an integer, as with the UI's percent slider — it lies in
`[0, 100]` for quality in `[0, 1]`, and the loop flag is 0 for looping and 1
for play-once, at the `save_file` and `create_gif` encoder boundaries. -/
theorem quantizer_loop_spec :
    (∀ q : ℚ, 0 ≤ q → q ≤ 1 →
      quantizer_level q = ⌊100 - q * 100⌋ ∧
      0 ≤ quantizer_level q ∧ quantizer_level q ≤ 100 ∧
      ((q * 100).den = 1 → quantizer_level q = round (100 - q * 100))) ∧
    loop_param true = 0 ∧ loop_param false = 1 ∧
    (∀ (preview_frames : List Frame) (fs ss qs : ℤ) (loop : Bool)
        (enc : EncodeCall),
        save_file preview_frames fs ss qs loop = some enc →
        enc.quantizer = quantizer_level ((qs : ℚ) / 100) ∧
        enc.loopFlag = loop_param loop) ∧
    (∀ (decode : ℚ × ℚ → ℚ → Option Frame) (segs : List (ℚ × ℚ)) (fps : ℚ)
        (tw th : ℕ) (quality : ℚ) (loop : Bool) (speed : ℚ)
        (enc : EncodeCall) (trace : List ℤ),
        createGifSegments decode segs fps tw th quality loop speed =
          (some enc, trace) →
        enc.quantizer = quantizer_level quality ∧
        enc.loopFlag = loop_param loop) := by
  refine ⟨?_, rfl, rfl, ?_, ?_⟩
  · intro q h0 h1
    have harg0 : (0 : ℚ) ≤ 100 - q * 100 := by nlinarith
    have hfl : quantizer_level q = ⌊100 - q * 100⌋ := by
      rw [quantizer_level, pyInt_eq_floor harg0]
    refine ⟨hfl, ?_, ?_, ?_⟩
    · rw [hfl]
      exact Int.floor_nonneg.mpr harg0
    · rw [hfl]
      have hle : (100 - q * 100 : ℚ) ≤ 100 := by nlinarith
      calc ⌊(100 - q * 100 : ℚ)⌋ ≤ ⌊(100 : ℚ)⌋ := Int.floor_le_floor hle
        _ = 100 := by norm_num
    · intro hden
      have hint : (((q * 100).num : ℤ) : ℚ) = q * 100 :=
        (Rat.den_eq_one_iff (q * 100)).mp hden
      rw [hfl]
      rw [show (100 - q * 100 : ℚ) = ((100 - (q * 100).num : ℤ) : ℚ) by
        push_cast
        rw [hint]]
      rw [Int.floor_intCast, round_intCast]
  · intro preview_frames fs ss qs loop enc h
    unfold save_file at h
    split_ifs at h
    simp only [Option.some.injEq] at h
    rw [← h]
    exact ⟨rfl, rfl⟩
  · intro decode segs fps tw th quality loop speed enc trace h
    cases hall : assembleAllFrames decode segs fps tw th speed with
    | nil =>
      rw [createGifSegments_eq_nil hall] at h
      simp at h
    | cons a t =>
      rw [createGifSegments_eq_cons hall] at h
      simp only [Prod.mk.injEq, Option.some.injEq] at h
      rw [← h.1]
      exact ⟨rfl, rfl⟩

/-- Witness for C7 (amended) at the UI default quality slider value 90. -/
theorem quantizer_loop_spec_witness :
    quantizer_level (9 / 10) = ⌊100 - (9 / 10 : ℚ) * 100⌋ :=
  (quantizer_loop_spec.1 (9 / 10) (by norm_num) (by norm_num)).1

/-- C4: the fps-reporting asymmetry.  A preview of a non-segmented single
trimmed range reports `fps * speed_factor` to the player
(`generate_preview`); saving the preview frames reports
`fps_spin * (speed_slider / 100)` to the encoder (`save_file`); but a
multi-segment `create_gif` export hands the flat requested `fps` to the
encoder — segment-level speed is realized only through sampling density. -/
theorem fps_reporting_asymmetry :
    (∀ (getFrame : ℤ → Option Frame) (src_fps start_time end_time fps : ℚ)
        (dimensions : ℕ × ℕ) (crop_rect : Option (ℕ × ℕ × ℕ × ℕ))
        (speed : ℚ) (frames : List Frame) (afps : ℚ),
        generate_preview true getFrame src_fps start_time end_time fps
          dimensions crop_rect none speed = .ok frames afps →
        afps = fps * speed) ∧
    (∀ (preview_frames : List Frame) (fs ss qs : ℤ) (loop : Bool)
        (enc : EncodeCall),
        save_file preview_frames fs ss qs loop = some enc →
        enc.fps = (fs : ℚ) * ((ss : ℚ) / 100)) ∧
    (∀ (decode : ℚ × ℚ → ℚ → Option Frame) (segs : List (ℚ × ℚ)) (fps : ℚ)
        (tw th : ℕ) (quality : ℚ) (loop : Bool) (speed : ℚ)
        (enc : EncodeCall) (trace : List ℤ),
        createGifSegments decode segs fps tw th quality loop speed =
          (some enc, trace) → enc.fps = fps) := by
  refine ⟨?_, ?_, ?_⟩
  · intro getFrame src_fps start_time end_time fps dims crop speed frames
      afps h
    simp only [generate_preview, not_true, if_false, ite_false] at h
    cases h
    rfl
  · intro preview_frames fs ss qs loop enc h
    unfold save_file at h
    split_ifs at h
    simp only [Option.some.injEq] at h
    rw [← h]
  · intro decode segs fps tw th quality loop speed enc trace h
    cases hall : assembleAllFrames decode segs fps tw th speed with
    | nil =>
      rw [createGifSegments_eq_nil hall] at h
      simp at h
    | cons a t =>
      rw [createGifSegments_eq_cons hall] at h
      simp only [Prod.mk.injEq, Option.some.injEq] at h
      rw [← h.1]

/-- Witness for C4: a concrete loaded single-range preview reports
`1 * 2 = 2` as the adjusted fps. -/
theorem fps_reporting_asymmetry_witness : (2 : ℚ) = 1 * 2 :=
  fps_reporting_asymmetry.1 (fun _ => none) 1 0 1 1 (4, 3) none 2 [] 2
    (by with_unfolding_all decide)

/-- C10: `generate_preview` has an inconsistent result shape at its public
boundary: with no loaded video it returns a bare empty list, while with a
loaded video it returns the pair `(frames, fps * speed_factor)` — including
when the computed frame list is empty — so unpacking two values succeeds
exactly when a video is loaded. -/
theorem generate_preview_result_shape :
    (∀ (getFrame : ℤ → Option Frame) (src_fps start_time end_time fps : ℚ)
        (dimensions : ℕ × ℕ) (crop_rect : Option (ℕ × ℕ × ℕ × ℕ))
        (segments : Option (List (ℚ × ℚ))) (speed : ℚ),
        generate_preview false getFrame src_fps start_time end_time fps
          dimensions crop_rect segments speed = .noVideo []) ∧
    (∀ (getFrame : ℤ → Option Frame) (src_fps start_time end_time fps : ℚ)
        (dimensions : ℕ × ℕ) (crop_rect : Option (ℕ × ℕ × ℕ × ℕ))
        (segments : Option (List (ℚ × ℚ))) (speed : ℚ),
        generate_preview true getFrame src_fps start_time end_time fps
          dimensions crop_rect segments speed =
          .ok (previewComputedFrames getFrame src_fps dimensions crop_rect
            start_time end_time fps segments speed) (fps * speed)) ∧
    (∀ (loaded : Bool) (getFrame : ℤ → Option Frame)
        (src_fps start_time end_time fps : ℚ) (dimensions : ℕ × ℕ)
        (crop_rect : Option (ℕ × ℕ × ℕ × ℕ))
        (segments : Option (List (ℚ × ℚ))) (speed : ℚ),
        (∃ frames afps,
          generate_preview loaded getFrame src_fps start_time end_time fps
            dimensions crop_rect segments speed = .ok frames afps) ↔
          loaded = true) := by
  refine ⟨fun _ _ _ _ _ _ _ _ _ => rfl, fun _ _ _ _ _ _ _ _ _ => rfl, ?_⟩
  intro loaded getFrame src_fps start_time end_time fps dims crop segments
    speed
  cases loaded
  · simp [generate_preview]
  · simp [generate_preview]
